import Mathlib

/-!
# Verification of the `disco` random-byte streaming core

A shallow embedding of the `disco` crate: the forward-secure generator
(`src/rng.rs`, a thin layer over the ChaCha20 stream cipher), the per-worker
I/O state machine (`src/stream.rs`, `run_worker`), and the pool-level join
and error-aggregation logic (`src/stream.rs`, `join_workers`).

Bytes are modelled as `Nat` values below 256, buffers as `List Nat`.
The ChaCha20 keystream is implemented from RFC 8439 (the cipher the
`chacha20` crate provides), with 32-bit words represented as `Nat`
reduced modulo `2 ^ 32`.
-/

set_option maxRecDepth 100000

namespace Disco

/-! ## ChaCha20 (RFC 8439), the cipher used by `CryptoRng::regenerate` -/

/-- 32-bit modulus. -/
def w32 : Nat := 2 ^ 32

/-- Addition of 32-bit words. -/
def add32 (a b : Nat) : Nat := (a + b) % w32

/-- Left rotation of a 32-bit word by `n` bits. -/
def rotl32 (x n : Nat) : Nat := ((x <<< n) ||| (x >>> (32 - n))) % w32

/-- The ChaCha quarter round acting on positions `a b c d` of the
16-word state. -/
def quarterRound (a b c d : Nat) (s : List Nat) : List Nat :=
  let sa := s.getD a 0
  let sb := s.getD b 0
  let sc := s.getD c 0
  let sd := s.getD d 0
  let sa := add32 sa sb
  let sd := rotl32 (sd ^^^ sa) 16
  let sc := add32 sc sd
  let sb := rotl32 (sb ^^^ sc) 12
  let sa := add32 sa sb
  let sd := rotl32 (sd ^^^ sa) 8
  let sc := add32 sc sd
  let sb := rotl32 (sb ^^^ sc) 7
  ((((s.set a sa).set b sb).set c sc).set d sd)

/-- One ChaCha double round: four column rounds then four diagonal rounds. -/
def doubleRound (s : List Nat) : List Nat :=
  quarterRound 3 4 9 14 <| quarterRound 2 7 8 13 <|
  quarterRound 1 6 11 12 <| quarterRound 0 5 10 15 <|
  quarterRound 3 7 11 15 <| quarterRound 2 6 10 14 <|
  quarterRound 1 5 9 13 <| quarterRound 0 4 8 12 s

/-- `n` double rounds (ChaCha20 runs 10, i.e. 20 rounds). -/
def chachaRounds : Nat → List Nat → List Nat
  | 0, s => s
  | n + 1, s => chachaRounds n (doubleRound s)

/-- Assemble the little-endian 32-bit word at byte offset `off`. -/
def leWord (bs : List Nat) (off : Nat) : Nat :=
  bs.getD off 0 + 256 * bs.getD (off + 1) 0 +
    65536 * bs.getD (off + 2) 0 + 16777216 * bs.getD (off + 3) 0

/-- Serialize a 32-bit word to four little-endian bytes. -/
def wordToBytes (w : Nat) : List Nat :=
  [w % 256, (w / 256) % 256, (w / 65536) % 256, (w / 16777216) % 256]

/-- The initial ChaCha20 state: four constants, eight key words, the block
counter, three nonce words (IETF variant: 32-bit counter, 96-bit nonce). -/
def chachaInit (key nonce : List Nat) (counter : Nat) : List Nat :=
  [0x61707865, 0x3320646e, 0x79622d32, 0x6b206574]
    ++ (List.range 8).map (fun i => leWord key (4 * i))
    ++ [counter % w32]
    ++ (List.range 3).map (fun i => leWord nonce (4 * i))

/-- The ChaCha20 block function: 20 rounds, add the initial state, and
serialize the 16 words little-endian into 64 keystream bytes. -/
def chachaBlock (key nonce : List Nat) (counter : Nat) : List Nat :=
  let s0 := chachaInit key nonce counter
  let s := chachaRounds 10 s0
  (List.range 16).flatMap (fun i => wordToBytes (add32 (s0.getD i 0) (s.getD i 0)))

/-- `nblocks * 64` keystream bytes, block counter starting at 0 (as
`ChaCha20::new` followed by `apply_keystream` does). -/
def chachaKeystream (key nonce : List Nat) (nblocks : Nat) : List Nat :=
  (List.range nblocks).flatMap (chachaBlock key nonce)

/-- `apply_keystream`: XOR the keystream over the whole buffer in place. -/
def apply_keystream (key nonce buf : List Nat) : List Nat :=
  List.zipWith (fun a b => a ^^^ b) buf
    (chachaKeystream key nonce ((buf.length + 63) / 64))

/-- RFC 8439 §2.1.1 quarter-round test vector. -/
example :
    quarterRound 0 1 2 3 [0x11111111, 0x01020304, 0x9b8d6f43, 0x01234567] =
      [0xea2a92f4, 0xcb1cf8ce, 0x4581472e, 0x5881c4bb] := by decide

/-- RFC 8439 §2.3.2 block-function test vector (counter = 1). -/
example :
    chachaBlock
      [0x00, 0x01, 0x02, 0x03, 0x04, 0x05, 0x06, 0x07,
       0x08, 0x09, 0x0a, 0x0b, 0x0c, 0x0d, 0x0e, 0x0f,
       0x10, 0x11, 0x12, 0x13, 0x14, 0x15, 0x16, 0x17,
       0x18, 0x19, 0x1a, 0x1b, 0x1c, 0x1d, 0x1e, 0x1f]
      [0x00, 0x00, 0x00, 0x09, 0x00, 0x00, 0x00, 0x4a,
       0x00, 0x00, 0x00, 0x00] 1 =
      [0x10, 0xf1, 0xe7, 0xe4, 0xd1, 0x3b, 0x59, 0x15, 0x50, 0x0f, 0xdd, 0x1f,
       0xa3, 0x20, 0x71, 0xc4, 0xc7, 0xd1, 0xf4, 0xc7, 0x33, 0xc0, 0x68, 0x03,
       0x04, 0x22, 0xaa, 0x9a, 0xc3, 0xd4, 0x6c, 0x4e, 0xd2, 0x82, 0x64, 0x46,
       0x07, 0x9f, 0xaa, 0x09, 0x14, 0xc2, 0xd7, 0x05, 0xd9, 0x8b, 0x02, 0xa2,
       0xb5, 0x12, 0x9c, 0xd1, 0xde, 0x16, 0x4e, 0xb9, 0xcb, 0xd0, 0x83, 0xe8,
       0xa2, 0x50, 0x3c, 0x4e] := by decide

/-! ## Error taxonomy (`src/error.rs`) -/

/-- The opaque `getrandom::Error` payload. -/
structure GetRandomErr where
  code : Nat
deriving DecidableEq, Repr

/-- Classification of `std::io::Error::kind()` as `run_worker` inspects it:
`BrokenPipe`, `WouldBlock`, or anything else. -/
inductive IOKind where
  | brokenPipe
  | wouldBlock
  | other (k : Nat)
deriving DecidableEq, Repr

/-- A `std::io::Error`: its `kind()` classification and its
`raw_os_error()` code. -/
structure IOErr where
  kind : IOKind
  raw : Option Int
deriving DecidableEq, Repr

/-- `libc::ENXIO` ("no such device or address"), the error `open` reports
on a FIFO opened write-only with no reader attached. -/
def ENXIO : Int := 6

/-- `ErrorKind` from `src/error.rs`; a `WorkerError` is the
(thread index, cause) pair `WorkerError { thread_id, error }`. -/
inductive ErrorKind where
  | GetRandomError (e : GetRandomErr)
  | IOError (e : IOErr)
  | WorkerErrors (errs : List (Nat × ErrorKind))
deriving Repr

/-! ## The generator `CryptoRng` (`src/rng.rs`) -/

/-- `BUFFER_LEN` from `src/rng.rs`. -/
def BUFFER_LEN : Nat := 1024

/-- `KEY_LEN` from `src/rng.rs`. -/
def KEY_LEN : Nat := 32

/-- `OUTPUT_LEN` from `src/rng.rs`. -/
def OUTPUT_LEN : Nat := BUFFER_LEN - KEY_LEN

/-- The unchecked `slice_to_array::<N>` reinterpretation: defined (returns
the array) exactly when the slice has the expected length, mirroring the
validity condition of the unsafe pointer cast. -/
def slice_to_array (N : Nat) (s : List Nat) : Option (List Nat) :=
  if s.length = N then some s else none

/-- The `CryptoRng` struct: the Rust fields are `buffer : [u8; 1024]` and
`nonce : [u8; 12]`; the fixed array lengths become length invariants. -/
structure CryptoRng where
  buffer : List Nat
  nonce : List Nat
  hbuf : buffer.length = BUFFER_LEN
  hnonce : nonce.length = 12

namespace CryptoRng

/-- `key_slice`: the first `KEY_LEN` bytes of the buffer. -/
def key_slice (c : CryptoRng) : List Nat := c.buffer.take KEY_LEN

/-- `output_slice`: the buffer past the first `KEY_LEN` bytes. -/
def output_slice (c : CryptoRng) : List Nat := c.buffer.drop KEY_LEN

/-- `pub fn key`: the public accessor returning the key region
(via `slice_to_array::<KEY_LEN>` on `key_slice`, an identity on contents). -/
def key (c : CryptoRng) : List Nat := c.key_slice

/-- `pub fn output`: the public accessor returning the output region
(via `slice_to_array::<OUTPUT_LEN>` on `output_slice`). -/
def output (c : CryptoRng) : List Nat := c.output_slice

theorem chachaBlock_length (k n : List Nat) (c : Nat) :
    (chachaBlock k n c).length = 64 := by
  simp [chachaBlock, List.length_flatMap, wordToBytes, List.range_succ]

theorem chachaKeystream_length (k n : List Nat) (m : Nat) :
    (chachaKeystream k n m).length = 64 * m := by
  induction m with
  | zero => rfl
  | succ i ih =>
    rw [chachaKeystream, List.range_succ, List.flatMap_append]
    rw [chachaKeystream] at ih
    simp [List.length_append, ih, chachaBlock_length, Nat.mul_succ]

theorem apply_keystream_length (key nonce buf : List Nat) :
    (apply_keystream key nonce buf).length = buf.length := by
  simp [apply_keystream, List.length_zipWith, chachaKeystream_length]
  omega

/-- `pub fn regenerate`: build a ChaCha20 instance keyed by the current key
region and the nonce, apply its keystream over the whole buffer in place,
and return `self.output()`; the successor state is returned alongside. -/
def regenerate (c : CryptoRng) : CryptoRng × List Nat :=
  let buffer := apply_keystream c.key c.nonce c.buffer
  let c : CryptoRng :=
    { buffer := buffer
      nonce := c.nonce
      hbuf := by simp [buffer, apply_keystream_length, c.hbuf]
      hnonce := c.hnonce }
  (c, c.output)

/-- `pub fn from_entropy`: start from an all-zero buffer and nonce, then fill
the key slice from the OS entropy source. The OS call either fails with a
`getrandom::Error` or fills the 32-byte slice completely; `os` is its
result. -/
def from_entropy (os : Except GetRandomErr { l : List Nat // l.length = KEY_LEN }) :
    Except ErrorKind CryptoRng :=
  match os with
  | .error e => .error (.GetRandomError e)
  | .ok k =>
      .ok { buffer := k.1 ++ List.replicate (BUFFER_LEN - KEY_LEN) 0
            nonce := List.replicate 12 0
            hbuf := by simp [k.2, BUFFER_LEN, KEY_LEN]
            hnonce := by simp }

end CryptoRng

/-! ## The worker state machine (`src/stream.rs`, `run_worker`) -/

/-- `default_sleep_time` from `src/core.rs`: 20 milliseconds. -/
def default_sleep_time : Nat := 20

instance instDecEqExcept {ε α : Type} [DecidableEq ε] [DecidableEq α] :
    DecidableEq (Except ε α) := fun a b =>
  match a, b with
  | .error e, .error f =>
    if h : e = f then .isTrue (by rw [h]) else .isFalse (by simp [h])
  | .error _, .ok _ => .isFalse (by simp)
  | .ok _, .error _ => .isFalse (by simp)
  | .ok x, .ok y =>
    if h : x = y then .isTrue (by rw [h]) else .isFalse (by simp [h])

/-- One observation the worker makes of its environment, in program order: a
read of the shared running flag, the result of `open_pipe`, or the result of
`write_all`. -/
inductive Ev where
  | flag (b : Bool)
  | openRes (r : Except IOErr Unit)
  | writeRes (r : Except IOErr Unit)
deriving DecidableEq, Repr

/-- An externally visible action of the worker: an open attempt, the backoff
sleep, a write attempt carrying the generated block, or the final discarded
regeneration. -/
inductive Act where
  | openAttempt (r : Except IOErr Unit)
  | sleep (ms : Nat)
  | writeAttempt (block : List Nat) (r : Except IOErr Unit)
  | finalRegen
deriving DecidableEq, Repr

/-- How one run of the inner streaming loop ends: fall back to the outer
loop (flag read false, or broken pipe), a fatal write error, or fuel/trace
exhaustion. -/
inductive InnerRes where
  | toOuter (rng : CryptoRng) (evs : List Ev) (log : List Act)
  | fatal (e : IOErr) (rng : CryptoRng) (log : List Act)
  | incomplete (rng : CryptoRng) (log : List Act)

/-- The generator state a finished inner loop hands on. -/
def InnerRes.rng : InnerRes → CryptoRng
  | .toOuter rng _ _ => rng
  | .fatal _ rng _ => rng
  | .incomplete rng _ => rng

/-- The action log a finished inner loop hands on. -/
def InnerRes.log : InnerRes → List Act
  | .toOuter _ _ log => log
  | .fatal _ _ log => log
  | .incomplete _ log => log

/-- The inner `while spec.is_running()` loop of `run_worker`: each iteration
re-reads the flag, generates a fresh block via `rng.regenerate()` and
attempts `file.write_all` on it; `BrokenPipe` breaks back to the outer loop,
`WouldBlock` continues the loop, any other error returns fatally. -/
def innerLoop : Nat → CryptoRng → List Ev → List Act → InnerRes
  | 0, rng, _, log => .incomplete rng log
  | fuel + 1, rng, evs, log =>
    match evs with
    | .flag false :: evs => .toOuter rng evs log
    | .flag true :: .writeRes r :: evs =>
      let p := rng.regenerate
      match r with
      | .ok _ => innerLoop fuel p.1 evs (log ++ [.writeAttempt p.2 r])
      | .error e =>
        match e.kind with
        | .brokenPipe => .toOuter p.1 evs (log ++ [.writeAttempt p.2 r])
        | .wouldBlock => innerLoop fuel p.1 evs (log ++ [.writeAttempt p.2 r])
        | .other _ => .fatal e p.1 (log ++ [.writeAttempt p.2 r])
    | _ => .incomplete rng log

/-- How a whole `run_worker` run ends: `done` carries the function's
returned `Result` and the worker's final generator state (`none` when
seeding itself failed); `incomplete` means fuel or trace ran out. -/
inductive RunRes where
  | done (r : Except ErrorKind Unit) (rng : Option CryptoRng) (log : List Act)
  | incomplete (rng : Option CryptoRng) (log : List Act)

/-- The final generator state of a run. -/
def RunRes.rng : RunRes → Option CryptoRng
  | .done _ rng _ => rng
  | .incomplete rng _ => rng

/-- The action log of a run. -/
def RunRes.log : RunRes → List Act
  | .done _ _ log => log
  | .incomplete _ log => log

/-- The outer `while spec.is_running()` loop of `run_worker`: each iteration
re-reads the flag — on false the loop exits, `rng.regenerate()` is called
once more with its result discarded, and `Ok` is returned; on true the pipe
is opened: `ENXIO` sleeps the fixed backoff and retries, any other open
error is fatal, and success enters the inner streaming loop. -/
def outerLoop : Nat → CryptoRng → List Ev → List Act → RunRes
  | 0, rng, _, log => .incomplete (some rng) log
  | fuel + 1, rng, evs, log =>
    match evs with
    | .flag false :: _ =>
      .done (.ok ()) (some rng.regenerate.1) (log ++ [.finalRegen])
    | .flag true :: .openRes (.error e) :: evs =>
      if e.raw = some ENXIO then
        outerLoop fuel rng evs (log ++ [.openAttempt (.error e), .sleep default_sleep_time])
      else
        .done (.error (.IOError e)) (some rng) (log ++ [.openAttempt (.error e)])
    | .flag true :: .openRes (.ok _) :: evs =>
      match innerLoop fuel rng evs (log ++ [.openAttempt (.ok ())]) with
      | .toOuter rng evs log => outerLoop fuel rng evs log
      | .fatal e rng log => .done (.error (.IOError e)) (some rng) log
      | .incomplete rng log => .incomplete (some rng) log
    | _ => .incomplete (some rng) log

/-- `run_worker`: seed the generator from OS entropy once, before the first
open (propagating `GetRandomError` when seeding fails), then drive the
open/stream loops. -/
def run_worker (os : Except GetRandomErr { l : List Nat // l.length = KEY_LEN })
    (fuel : Nat) (evs : List Ev) : RunRes :=
  match CryptoRng.from_entropy os with
  | .error e => .done (.error e) none []
  | .ok rng => outerLoop fuel rng evs []

/-! ## Pool join and error aggregation (`src/stream.rs`, `join_workers`) -/

/-- A `WorkerError` from `src/error.rs`: the (thread index, cause) pair. -/
abbrev WorkerError := Nat × ErrorKind

/-- What joining one successfully spawned thread yields: the thread's
returned `Result`, or a panic (re-raised by `join_workers`, never folded
into the aggregate). -/
inductive JoinOutcome where
  | ret (r : Except ErrorKind Unit)
  | panicked

/-- The enumerate/filter pass of `join_workers`, carrying the position `i`:
a spawn failure contributes its stored `WorkerError`, a thread that returned
`Err(e)` contributes `WorkerError::new(i, e)`, a clean thread contributes
nothing, and a panicked thread aborts the whole pass
(`panic::resume_unwind`), modelled as `none`. -/
def collectErrors : Nat → List (Except WorkerError JoinOutcome) → Option (List WorkerError)
  | _, [] => some []
  | i, h :: rest =>
    match h with
    | .error e => (collectErrors (i + 1) rest).map (fun es => e :: es)
    | .ok (.ret (.error e)) => (collectErrors (i + 1) rest).map (fun es => (i, e) :: es)
    | .ok (.ret (.ok _)) => collectErrors (i + 1) rest
    | .ok .panicked => none

/-- `join_workers`: `Ok` exactly when the collected error list is empty,
otherwise the whole ordered list as one `WorkerErrors` aggregate; `none`
models a re-raised panic. -/
def join_workers (handles : List (Except WorkerError JoinOutcome)) :
    Option (Except ErrorKind Unit) :=
  (collectErrors 0 handles).map
    (fun errors => if errors.isEmpty then .ok () else .error (.WorkerErrors errors))

/-! ## Concrete generator states used by witnesses and counterexamples -/

/-- A concrete generator state: buffer bytes `0,1,...,255,0,1,...`, all-zero
nonce. -/
def sampleRng : CryptoRng :=
  { buffer := (List.range 1024).map (fun i => i % 256)
    nonce := List.replicate 12 0
    hbuf := by simp [BUFFER_LEN]
    hnonce := by simp }

/-- A second generator state built by a different expression but holding the
same buffer contents as `sampleRng`. -/
def sampleRng₂ : CryptoRng :=
  { buffer := (List.range 1024).map (fun i => (i + 256) % 256)
    nonce := List.replicate 12 0
    hbuf := by simp [BUFFER_LEN]
    hnonce := by simp }

/-- A 32-byte entropy value used by concrete runs: bytes `0..31`. -/
def sampleKey : { l : List Nat // l.length = KEY_LEN } :=
  ⟨List.range 32, by simp [KEY_LEN]⟩

/-- The generator state `from_entropy` produces from `sampleKey`. -/
def seededSample : CryptoRng :=
  { buffer := sampleKey.1 ++ List.replicate (BUFFER_LEN - KEY_LEN) 0
    nonce := List.replicate 12 0
    hbuf := by simp [sampleKey, BUFFER_LEN, KEY_LEN]
    hnonce := by simp }

/-- A would-block write error (`EAGAIN`). -/
def wbErr : IOErr := { kind := .wouldBlock, raw := some 11 }

/-- An open error outside the `ENXIO` class (`EACCES`). -/
def fatalOpenErr : IOErr := { kind := .other 1, raw := some 13 }

/-- The first block `sampleRng` generates. -/
def block₁ : List Nat := sampleRng.regenerate.2

/-- The generator state after `sampleRng` generated `block₁`. -/
def rngAfter₁ : CryptoRng := sampleRng.regenerate.1

/-- The block generated on the iteration after the would-block failure. -/
def block₂ : List Nat := rngAfter₁.regenerate.2

/-! ## Claims about the generator -/

/-- C3: `regenerate()` XORs the ChaCha20 keystream — keyed by the current
32-byte key region and the state's nonce (all-zero from seeding onward),
16 blocks covering the whole 1024-byte buffer — over the buffer in place, in
one pass; the new key region is the post-combine first 32 bytes, the returned
output is the post-combine remaining 992 bytes, and the successor state holds
nothing beyond that buffer and the unchanged nonce, so the old key survives
nowhere. -/
theorem C3_regenerate_fast_key_erasure (c : CryptoRng) :
    c.regenerate.1.buffer =
      List.zipWith (fun a b => a ^^^ b) c.buffer (chachaKeystream c.key c.nonce 16) ∧
    (chachaKeystream c.key c.nonce 16).length = BUFFER_LEN ∧
    c.regenerate.1.key = c.regenerate.1.buffer.take KEY_LEN ∧
    c.regenerate.2 = c.regenerate.1.buffer.drop KEY_LEN ∧
    c.regenerate.2.length = OUTPUT_LEN ∧
    c.regenerate.1.nonce = c.nonce ∧
    (∀ k, (CryptoRng.from_entropy (.ok k)).toOption.map CryptoRng.nonce =
        some (List.replicate 12 0)) := by
  have h16 : (c.buffer.length + 63) / 64 = 16 := by rw [c.hbuf]; rfl
  refine ⟨?_, ?_, rfl, rfl, ?_, rfl, fun k => rfl⟩
  · simp [CryptoRng.regenerate, apply_keystream, h16]
  · rw [CryptoRng.chachaKeystream_length]; rfl
  · have := CryptoRng.apply_keystream_length c.key c.nonce c.buffer
    simp [CryptoRng.regenerate, CryptoRng.output, CryptoRng.output_slice,
      List.length_drop, this, c.hbuf, OUTPUT_LEN]

/-- C4 counterexample: the claim says the key region is never returned to any
caller through the generator's public interface, but `pub fn key` is part of
that interface and returns exactly the 32-byte key region: at the concrete
state `sampleRng` a caller of `key()` receives the key bytes `0..31`. -/
theorem C4_counterexample :
    CryptoRng.key sampleRng = sampleRng.buffer.take KEY_LEN ∧
    CryptoRng.key sampleRng = List.range 32 := by
  exact ⟨rfl, by decide⟩

/-- C4 (amended): the output-producing interface exposes only the 992-byte
output region — `output()` returns exactly the buffer past the key region,
`regenerate()` returns the output region of the resulting (most recent)
state, and key and output regions partition the buffer — but the public
accessor `key()` does return the key region to its caller. -/
theorem C4_only_output_region_streamed (c : CryptoRng) :
    c.output = c.buffer.drop KEY_LEN ∧
    c.key ++ c.output = c.buffer ∧
    c.regenerate.2 = c.regenerate.1.output ∧
    c.key = c.buffer.take KEY_LEN := by
  refine ⟨rfl, ?_, rfl, rfl⟩
  simp [CryptoRng.key, CryptoRng.output, CryptoRng.key_slice, CryptoRng.output_slice]

/-- C5: seeding fills exactly the 32-byte key region with the bytes read from
the OS entropy source, leaves the 992-byte output region all-zero until the
first regeneration, fails with `GetRandomError` exactly when the OS source
fails, and on that failure produces no generator. -/
theorem C5_from_entropy_seeds_key_region :
    (∀ e, CryptoRng.from_entropy (.error e) = .error (.GetRandomError e)) ∧
    (∀ e, (CryptoRng.from_entropy (.error e)).isOk = false) ∧
    (∀ k, ∃ c, CryptoRng.from_entropy (.ok k) = .ok c ∧
        c.key_slice = k.1 ∧
        c.output_slice = List.replicate OUTPUT_LEN 0 ∧
        c.nonce = List.replicate 12 0) := by
  refine ⟨fun e => rfl, fun e => rfl, fun k => ⟨_, rfl, ?_, ?_, rfl⟩⟩
  · have h := List.take_left (k.1 : List Nat) (List.replicate (BUFFER_LEN - KEY_LEN) 0)
    rw [k.2] at h
    exact h
  · have h := List.drop_left (k.1 : List Nat) (List.replicate (BUFFER_LEN - KEY_LEN) 0)
    rw [k.2] at h
    exact h

/-- C9: `regenerate()` is deterministic — two generators holding identical
buffer contents and nonces produce bitwise-identical buffers after any number
of regenerations, and bitwise-identical next outputs. -/
theorem C9_regenerate_deterministic (c₁ c₂ : CryptoRng)
    (hb : c₁.buffer = c₂.buffer) (hn : c₁.nonce = c₂.nonce) (n : Nat) :
    ((fun c : CryptoRng => c.regenerate.1)^[n] c₁).buffer =
      ((fun c : CryptoRng => c.regenerate.1)^[n] c₂).buffer ∧
    ((fun c : CryptoRng => c.regenerate.1)^[n] c₁).regenerate.2 =
      ((fun c : CryptoRng => c.regenerate.1)^[n] c₂).regenerate.2 := by
  have h : c₁ = c₂ := by cases c₁; cases c₂; simp_all
  subst h
  exact ⟨rfl, rfl⟩

/-- C9 witness: `sampleRng` and `sampleRng₂` are built by different
expressions but hold equal contents; after one regeneration their buffers and
next outputs coincide. -/
theorem C9_witness :
    ((fun c : CryptoRng => c.regenerate.1)^[1] sampleRng).buffer =
      ((fun c : CryptoRng => c.regenerate.1)^[1] sampleRng₂).buffer ∧
    ((fun c : CryptoRng => c.regenerate.1)^[1] sampleRng).regenerate.2 =
      ((fun c : CryptoRng => c.regenerate.1)^[1] sampleRng₂).regenerate.2 :=
  C9_regenerate_deterministic sampleRng sampleRng₂ (by decide) (by decide) 1

/-- C10: for every generator state the buffer holds exactly 1024 bytes, so
`key()` reinterprets a slice of length exactly 32 and `output()` a slice of
length exactly 992, and both unchecked `slice_to_array` conversions are
valid — neither reads past the buffer. -/
theorem C10_slice_to_array_in_bounds (c : CryptoRng) :
    c.buffer.length = BUFFER_LEN ∧
    c.key_slice.length = KEY_LEN ∧
    c.output_slice.length = OUTPUT_LEN ∧
    slice_to_array KEY_LEN c.key_slice = some c.key_slice ∧
    slice_to_array OUTPUT_LEN c.output_slice = some c.output_slice := by
  have h := c.hbuf
  have hk : c.key_slice.length = KEY_LEN := by
    simp [CryptoRng.key_slice, List.length_take, h, BUFFER_LEN, KEY_LEN]
  have ho : c.output_slice.length = OUTPUT_LEN := by
    simp [CryptoRng.output_slice, List.length_drop, h, OUTPUT_LEN]
  exact ⟨h, hk, ho, by simp [slice_to_array, hk], by simp [slice_to_array, ho]⟩

/-! ## Claims about the worker state machine -/

/-- C1 counterexample: the claim says a would-block failure is retried with
the same already-generated block; in the code the `continue` re-enters the
loop body, whose `rng.regenerate()` call produces a fresh block. Concretely:
starting from `sampleRng`, the write that fails with would-block carries
`block₁`, the retry carries `block₂ = regenerate(after block₁).2`, and the
block delivered to the reader differs bitwise from the one first
generated. -/
theorem C1_counterexample :
    innerLoop 3 sampleRng
        [.flag true, .writeRes (.error wbErr), .flag true, .writeRes (.ok ()), .flag false]
        [] =
      .toOuter rngAfter₁.regenerate.1 []
        [.writeAttempt block₁ (.error wbErr), .writeAttempt block₂ (.ok ())] ∧
    block₁ ≠ block₂ :=
  ⟨rfl, by decide⟩

/-- C1 (amended): when a write fails with a would-block error the worker
loops back, re-reads the running flag, and retries the write with a NEWLY
generated block — the successor of the failed one under `regenerate()` — so
the failed block is discarded, not retried; the block eventually delivered
is the freshly generated one. -/
theorem C1_wouldblock_discards_block (fuel : Nat) (rng : CryptoRng) (evs : List Ev)
    (log : List Act) (raw : Option Int) :
    innerLoop (fuel + 1) rng
        (.flag true :: .writeRes (.error ⟨.wouldBlock, raw⟩) :: evs) log =
      innerLoop fuel rng.regenerate.1 evs
        (log ++ [.writeAttempt rng.regenerate.2 (.error ⟨.wouldBlock, raw⟩)]) ∧
    innerLoop (fuel + 2) rng
        (.flag true :: .writeRes (.error ⟨.wouldBlock, raw⟩) ::
          .flag true :: .writeRes (.ok ()) :: evs) log =
      innerLoop fuel rng.regenerate.1.regenerate.1 evs
        (log ++ [.writeAttempt rng.regenerate.2 (.error ⟨.wouldBlock, raw⟩),
          .writeAttempt rng.regenerate.1.regenerate.2 (.ok ())]) := by
  constructor
  · simp only [innerLoop]
  · show innerLoop (fuel + 1 + 1) rng _ log = _
    simp only [innerLoop, List.append_assoc, List.cons_append, List.nil_append]

/-- C7: in `AwaitingReader`, an open failure whose raw OS error is `ENXIO`
(no reader attached) makes the worker sleep the fixed 20 ms backoff and loop
back — the loop recursion re-reads the shutdown flag, retrying the open when
it is still set and terminating (final discarded regeneration, `Ok`) when
shutdown was requested; an open failure of any other class returns an I/O
error and ends the thread. -/
theorem C7_enxio_backoff_retry (fuel : Nat) (rng : CryptoRng) (evs : List Ev)
    (log : List Act) (e : IOErr) :
    (outerLoop (fuel + 1) rng (.flag true :: .openRes (.error e) :: evs) log =
      if e.raw = some ENXIO then
        outerLoop fuel rng evs (log ++ [.openAttempt (.error e), .sleep 20])
      else
        .done (.error (.IOError e)) (some rng) (log ++ [.openAttempt (.error e)])) ∧
    default_sleep_time = 20 ∧
    (∀ evs₂, outerLoop (fuel + 1) rng (.flag false :: evs₂) log =
      .done (.ok ()) (some rng.regenerate.1) (log ++ [.finalRegen])) := by
  refine ⟨?_, rfl, fun evs₂ => ?_⟩
  · simp only [outerLoop, default_sleep_time]
  · simp only [outerLoop]

/-- The state-advancing half of `regenerate`, as iterated by a worker. -/
def regenStep (c : CryptoRng) : CryptoRng := c.regenerate.1

/-- Every generator state the inner loop can hand on is an iterate of
`regenerate` from the state it started with: the streaming loop never
reseeds. -/
theorem innerLoop_rng_iterate (fuel : Nat) :
    ∀ (rng : CryptoRng) (evs : List Ev) (log : List Act),
      ∃ m, (innerLoop fuel rng evs log).rng = regenStep^[m] rng := by
  have h0 : ∀ c : CryptoRng, regenStep^[0] c = c := fun c => rfl
  have h1 : ∀ c : CryptoRng, regenStep^[1] c = c.regenerate.1 := fun c => rfl
  induction fuel with
  | zero =>
    intro rng evs log
    exact ⟨0, by simp only [innerLoop, InnerRes.rng, h0]⟩
  | succ n ih =>
    intro rng evs log
    match evs with
    | [] => exact ⟨0, by simp only [innerLoop, InnerRes.rng, h0]⟩
    | .flag false :: evs₂ => exact ⟨0, by simp only [innerLoop, InnerRes.rng, h0]⟩
    | [.flag true] => exact ⟨0, by simp only [innerLoop, InnerRes.rng, h0]⟩
    | .openRes r :: evs₂ => exact ⟨0, by simp only [innerLoop, InnerRes.rng, h0]⟩
    | .writeRes r :: evs₂ => exact ⟨0, by simp only [innerLoop, InnerRes.rng, h0]⟩
    | .flag true :: .flag b :: evs₂ =>
      exact ⟨0, by simp only [innerLoop, InnerRes.rng, h0]⟩
    | .flag true :: .openRes r :: evs₂ =>
      exact ⟨0, by simp only [innerLoop, InnerRes.rng, h0]⟩
    | .flag true :: .writeRes (.ok u) :: evs₂ =>
      obtain ⟨m, hm⟩ := ih rng.regenerate.1 evs₂
        (log ++ [.writeAttempt rng.regenerate.2 (.ok u)])
      refine ⟨m + 1, ?_⟩
      simp only [innerLoop]
      rw [hm, Function.iterate_succ_apply]
      rfl
    | .flag true :: .writeRes (.error (IOErr.mk .brokenPipe raw)) :: evs₂ =>
      exact ⟨1, by simp only [innerLoop, InnerRes.rng, h1]⟩
    | .flag true :: .writeRes (.error (IOErr.mk .wouldBlock raw)) :: evs₂ =>
      obtain ⟨m, hm⟩ := ih rng.regenerate.1 evs₂
        (log ++ [.writeAttempt rng.regenerate.2 (.error (IOErr.mk .wouldBlock raw))])
      refine ⟨m + 1, ?_⟩
      simp only [innerLoop]
      rw [hm, Function.iterate_succ_apply]
      rfl
    | .flag true :: .writeRes (.error (IOErr.mk (.other k) raw)) :: evs₂ =>
      exact ⟨1, by simp only [innerLoop, InnerRes.rng, h1]⟩

/-- Every generator state a worker run can end in is an iterate of
`regenerate` from the state the run started with: the whole state machine
never reseeds. -/
theorem outerLoop_rng_iterate (fuel : Nat) :
    ∀ (rng : CryptoRng) (evs : List Ev) (log : List Act),
      ∃ m, (outerLoop fuel rng evs log).rng = some (regenStep^[m] rng) := by
  have h0 : ∀ c : CryptoRng, regenStep^[0] c = c := fun c => rfl
  have h1 : ∀ c : CryptoRng, regenStep^[1] c = c.regenerate.1 := fun c => rfl
  induction fuel with
  | zero =>
    intro rng evs log
    exact ⟨0, by simp only [outerLoop, RunRes.rng, h0]⟩
  | succ n ih =>
    intro rng evs log
    match evs with
    | [] => exact ⟨0, by simp only [outerLoop, RunRes.rng, h0]⟩
    | .flag false :: evs₂ => exact ⟨1, by simp only [outerLoop, RunRes.rng, h1]⟩
    | [.flag true] => exact ⟨0, by simp only [outerLoop, RunRes.rng, h0]⟩
    | .openRes r :: evs₂ => exact ⟨0, by simp only [outerLoop, RunRes.rng, h0]⟩
    | .writeRes r :: evs₂ => exact ⟨0, by simp only [outerLoop, RunRes.rng, h0]⟩
    | .flag true :: .flag b :: evs₂ =>
      exact ⟨0, by simp only [outerLoop, RunRes.rng, h0]⟩
    | .flag true :: .writeRes r :: evs₂ =>
      exact ⟨0, by simp only [outerLoop, RunRes.rng, h0]⟩
    | .flag true :: .openRes (.error e) :: evs₂ =>
      by_cases h : e.raw = some ENXIO
      · obtain ⟨m, hm⟩ := ih rng evs₂
          (log ++ [.openAttempt (.error e), .sleep default_sleep_time])
        exact ⟨m, by simp only [outerLoop, if_pos h]; exact hm⟩
      · exact ⟨0, by simp only [outerLoop, if_neg h, RunRes.rng, h0]⟩
    | .flag true :: .openRes (.ok ()) :: evs₂ =>
      obtain ⟨m₁, hm₁⟩ := innerLoop_rng_iterate n rng evs₂ (log ++ [.openAttempt (.ok ())])
      cases hI : innerLoop n rng evs₂ (log ++ [.openAttempt (.ok ())]) with
      | toOuter rng₂ evs₃ log₃ =>
        rw [hI] at hm₁
        simp only [InnerRes.rng] at hm₁
        obtain ⟨m₂, hm₂⟩ := ih rng₂ evs₃ log₃
        refine ⟨m₂ + m₁, ?_⟩
        simp only [outerLoop, hI]
        rw [hm₂, hm₁, Function.iterate_add_apply]
      | fatal e rng₂ log₃ =>
        rw [hI] at hm₁
        simp only [InnerRes.rng] at hm₁
        refine ⟨m₁, ?_⟩
        simp only [outerLoop, hI, RunRes.rng]
        exact congrArg some hm₁
      | incomplete rng₂ log₃ =>
        rw [hI] at hm₁
        simp only [InnerRes.rng] at hm₁
        refine ⟨m₁, ?_⟩
        simp only [outerLoop, hI, RunRes.rng]
        exact congrArg some hm₁

/-- C8: a broken-pipe write failure sends the worker back to the outer
`AwaitingReader` loop carrying the same generator instance — the state
advanced by the `regenerate()` call that produced the failed block, not a
reseeded one — and, run-wide, the generator is created from entropy exactly
once, before the first open: every state a run can end in is an iterate of
`regenerate` from the seeded state. -/
theorem C8_broken_pipe_same_generator (fuel : Nat) (rng : CryptoRng) (evs : List Ev)
    (log : List Act) (raw : Option Int) :
    (innerLoop (fuel + 1) rng
        (.flag true :: .writeRes (.error ⟨.brokenPipe, raw⟩) :: evs) log =
      .toOuter rng.regenerate.1 evs
        (log ++ [.writeAttempt rng.regenerate.2 (.error ⟨.brokenPipe, raw⟩)])) ∧
    (∀ (k : { l : List Nat // l.length = KEY_LEN }) (c : CryptoRng),
      CryptoRng.from_entropy (.ok k) = .ok c →
      ∃ m, (run_worker (.ok k) fuel evs).rng = some (regenStep^[m] c)) := by
  constructor
  · simp only [innerLoop]
  · intro k c hc
    obtain ⟨m, hm⟩ := outerLoop_rng_iterate fuel c evs []
    refine ⟨m, ?_⟩
    simp only [run_worker, hc]
    exact hm

/-- The inner streaming loop only appends write attempts to the log: it
never performs the final discarded regeneration. -/
theorem innerLoop_log_no_finalRegen (fuel : Nat) :
    ∀ (rng : CryptoRng) (evs : List Ev) (log : List Act),
      Act.finalRegen ∉ log → Act.finalRegen ∉ (innerLoop fuel rng evs log).log := by
  induction fuel with
  | zero => intro rng evs log h; exact h
  | succ n ih =>
    intro rng evs log h
    match evs with
    | [] => exact h
    | .flag false :: evs₂ => exact h
    | [.flag true] => exact h
    | .openRes r :: evs₂ => exact h
    | .writeRes r :: evs₂ => exact h
    | .flag true :: .flag b :: evs₂ => exact h
    | .flag true :: .openRes r :: evs₂ => exact h
    | .flag true :: .writeRes (.ok u) :: evs₂ =>
      exact ih _ _ _ (by simp [h])
    | .flag true :: .writeRes (.error (IOErr.mk .brokenPipe raw)) :: evs₂ =>
      show Act.finalRegen ∉ log ++ [_]
      simp [h]
    | .flag true :: .writeRes (.error (IOErr.mk .wouldBlock raw)) :: evs₂ =>
      exact ih _ _ _ (by simp [h])
    | .flag true :: .writeRes (.error (IOErr.mk (.other k) raw)) :: evs₂ =>
      show Act.finalRegen ∉ log ++ [_]
      simp [h]

/-- C2 (amended): the final discarded `regenerate()` happens exactly on the
`Ok` exit path — the worker observing the shutdown flag cleared — where it
erases the last live key (the final state is a `regenerate` successor); a
fatal error (`return Err(...)` on open or write) leaves `run_worker` before
the final regeneration at the end of the function, so on those exit paths
the last key is not erased. -/
theorem C2_final_regen_exactly_on_ok_exit :
    ∀ (fuel : Nat) (rng : CryptoRng) (evs : List Ev) (log : List Act)
      (r : Except ErrorKind Unit) (rng' : Option CryptoRng) (log' : List Act),
      Act.finalRegen ∉ log →
      outerLoop fuel rng evs log = .done r rng' log' →
      ((Act.finalRegen ∈ log' ↔ r = .ok ()) ∧
        (r = .ok () → ∃ p : CryptoRng, rng' = some p.regenerate.1)) := by
  intro fuel
  induction fuel with
  | zero =>
    intro rng evs log r rng' log' hlog h
    simp only [outerLoop] at h
    exact (RunRes.noConfusion h)
  | succ n ih =>
    intro rng evs log r rng' log' hlog h
    rcases evs with _ | ⟨ev, evs₂⟩
    · simp only [outerLoop] at h
      exact (RunRes.noConfusion h)
    · cases ev with
      | openRes r₁ =>
        simp only [outerLoop] at h
        exact (RunRes.noConfusion h)
      | writeRes r₁ =>
        simp only [outerLoop] at h
        exact (RunRes.noConfusion h)
      | flag b =>
        cases b with
        | false =>
          simp only [outerLoop] at h
          injection h with h1 h2 h3
          subst h1; subst h2; subst h3
          refine ⟨by simp, fun _ => ⟨rng, rfl⟩⟩
        | true =>
          rcases evs₂ with _ | ⟨ev₂, evs₃⟩
          · simp only [outerLoop] at h
            exact (RunRes.noConfusion h)
          · cases ev₂ with
            | flag b₂ =>
              simp only [outerLoop] at h
              exact (RunRes.noConfusion h)
            | writeRes r₂ =>
              simp only [outerLoop] at h
              exact (RunRes.noConfusion h)
            | openRes r₂ =>
              cases r₂ with
              | error e =>
                simp only [outerLoop] at h
                split at h
                · exact ih _ _ _ _ _ _ (by simp [hlog]) h
                · injection h with h1 h2 h3
                  subst h1; subst h2; subst h3
                  refine ⟨by simp [hlog], fun hcontra => by simp at hcontra⟩
              | ok u =>
                simp only [outerLoop] at h
                cases hI : innerLoop n rng evs₃ (log ++ [.openAttempt (.ok ())]) with
                | toOuter rng₂ evs₄ log₂ =>
                  rw [hI] at h
                  have hl₂ : Act.finalRegen ∉ log₂ := by
                    have hin := innerLoop_log_no_finalRegen n rng evs₃
                      (log ++ [.openAttempt (.ok ())]) (by simp [hlog])
                    rw [hI] at hin
                    exact hin
                  exact ih _ _ _ _ _ _ hl₂ h
                | fatal e rng₂ log₂ =>
                  rw [hI] at h
                  injection h with h1 h2 h3
                  subst h1; subst h2; subst h3
                  have hl₂ : Act.finalRegen ∉ log₂ := by
                    have hin := innerLoop_log_no_finalRegen n rng evs₃
                      (log ++ [.openAttempt (.ok ())]) (by simp [hlog])
                    rw [hI] at hin
                    exact hin
                  refine ⟨by simp [hl₂], fun hcontra => by simp at hcontra⟩
                | incomplete rng₂ log₂ =>
                  rw [hI] at h
                  exact absurd h (by simp)

/-- C2 counterexample: the claim says one final discarded `regenerate()`
runs on every exit after seeding succeeded, but a fatal open error returns
from `run_worker` before the final regeneration: in this concrete run the
worker exits with `Err(IOError)`, its log holds no final regeneration, and
the returned generator still holds the seeded live key `0..31`. -/
theorem C2_counterexample :
    run_worker (.ok sampleKey) 2 [.flag true, .openRes (.error fatalOpenErr)] =
      .done (.error (.IOError fatalOpenErr)) (some seededSample)
        [.openAttempt (.error fatalOpenErr)] ∧
    Act.finalRegen ∉ [Act.openAttempt (.error fatalOpenErr)] ∧
    seededSample.key = sampleKey.1 := by
  refine ⟨rfl, by simp, by decide⟩

/-- C2 witness: a shutdown-path run — flag read `false` at once — exits `Ok`
with the final regeneration in its log and an erased (re-keyed) final
state. -/
theorem C2_witness :
    (Act.finalRegen ∈ [Act.finalRegen] ↔
      (Except.ok () : Except ErrorKind Unit) = .ok ()) ∧
    ((Except.ok () : Except ErrorKind Unit) = .ok () →
      ∃ p : CryptoRng, some sampleRng.regenerate.1 = some p.regenerate.1) :=
  C2_final_regen_exactly_on_ok_exit 1 sampleRng [.flag false] [] (.ok ())
    (some sampleRng.regenerate.1) [.finalRegen] (by simp) (by simp only [outerLoop]; rfl)

/-- The spec's description of the aggregate, as a recursive definition: one
(index, cause) entry per failed slot from position `k` on, in list order —
spawn failures keep their stored pair, joined `Err(e)` threads contribute
`(position, e)`. -/
def orderedFailures (k : Nat) : List (Except WorkerError JoinOutcome) → List WorkerError
  | [] => []
  | .error e :: rest => e :: orderedFailures (k + 1) rest
  | .ok (.ret (.error e)) :: rest => (k, e) :: orderedFailures (k + 1) rest
  | .ok (.ret (.ok _)) :: rest => orderedFailures (k + 1) rest
  | .ok .panicked :: rest => orderedFailures (k + 1) rest

/-- When no thread panicked, the collection pass of `join_workers` returns
exactly the ordered failure list. -/
theorem collectErrors_eq_orderedFailures :
    ∀ (hs : List (Except WorkerError JoinOutcome)) (k : Nat),
      (∀ h ∈ hs, h ≠ .ok .panicked) →
      collectErrors k hs = some (orderedFailures k hs) := by
  intro hs
  induction hs with
  | nil => intro k hnp; rfl
  | cons h rest ih =>
    intro k hnp
    have hnp' : ∀ x ∈ rest, x ≠ .ok .panicked :=
      fun x hx => hnp x (List.mem_cons_of_mem _ hx)
    cases h with
    | error e =>
      simp only [collectErrors, orderedFailures, ih (k + 1) hnp']
      rfl
    | ok o =>
      cases o with
      | panicked => exact absurd rfl (hnp (.ok .panicked) (List.mem_cons_self _ _))
      | ret r =>
        cases r with
        | error e =>
          simp only [collectErrors, orderedFailures, ih (k + 1) hnp']
          rfl
        | ok u =>
          simp only [collectErrors, orderedFailures]
          exact ih (k + 1) hnp'

/-- Membership in the ordered failure list characterizes exactly the failed
slots: entry `(i, c)` is present iff slot `i - k` holds a spawn failure
storing `(i, c)` or a thread that returned `Err(c)`. -/
theorem orderedFailures_mem :
    ∀ (hs : List (Except WorkerError JoinOutcome)) (k : Nat),
      (∀ i e, hs[i]? = some (.error e) → e.1 = k + i) →
      ∀ i c, ((i, c) ∈ orderedFailures k hs ↔
        (k ≤ i ∧ (hs[i - k]? = some (.error (i, c)) ∨
          hs[i - k]? = some (.ok (.ret (.error c)))))) := by
  intro hs
  induction hs with
  | nil =>
    intro k halign i c
    simp [orderedFailures]
  | cons h rest ih =>
    intro k halign i c
    have halign' : ∀ j e, rest[j]? = some (.error e) → e.1 = (k + 1) + j := by
      intro j e hj
      have := halign (j + 1) e (by simpa using hj)
      omega
    rcases Nat.lt_or_ge i k with hik | hik
    · have hne : ¬ k ≤ i := by omega
      constructor
      · intro hm
        exfalso
        cases h with
        | error e =>
          have he : e.1 = k := by simpa using halign 0 e (by simp)
          simp only [orderedFailures, List.mem_cons] at hm
          rcases hm with heq | hm'
          · rw [← heq] at he; simp at he; omega
          · have := ((ih (k + 1) halign' i c).mp hm').1; omega
        | ok o =>
          cases o with
          | panicked =>
            simp only [orderedFailures] at hm
            have := ((ih (k + 1) halign' i c).mp hm).1; omega
          | ret r =>
            cases r with
            | error e =>
              simp only [orderedFailures, List.mem_cons] at hm
              rcases hm with heq | hm'
              · have : i = k := by
                  have := congrArg Prod.fst heq; simpa using this
                omega
              · have := ((ih (k + 1) halign' i c).mp hm').1; omega
            | ok u =>
              simp only [orderedFailures] at hm
              have := ((ih (k + 1) halign' i c).mp hm).1; omega
      · rintro ⟨h2, _⟩; omega
    · rcases Nat.eq_or_lt_of_le hik with heq | hlt
      · -- i = k : the head slot decides
        subst heq
        cases h with
        | error e =>
          have he : e.1 = k := by simpa using halign 0 e (by simp)
          simp only [orderedFailures, List.mem_cons, Nat.sub_self, List.getElem?_cons_zero]
          constructor
          · rintro (heq | hm')
            · exact ⟨Nat.le_refl k, Or.inl (by rw [← heq])⟩
            · exfalso
              have := ((ih (k + 1) halign' k c).mp hm').1; omega
          · rintro ⟨_, hor | hor⟩
            · left
              have := Option.some.inj hor
              exact (Except.error.inj this).symm
            · exfalso
              exact Except.noConfusion (Option.some.inj hor)
        | ok o =>
          cases o with
          | panicked =>
            simp only [orderedFailures, Nat.sub_self, List.getElem?_cons_zero]
            constructor
            · intro hm'
              exfalso
              have := ((ih (k + 1) halign' k c).mp hm').1; omega
            · rintro ⟨_, hor | hor⟩
              · exact Except.noConfusion (Option.some.inj hor)
              · exact JoinOutcome.noConfusion (Except.ok.inj (Option.some.inj hor))
          | ret r =>
            cases r with
            | error e =>
              simp only [orderedFailures, List.mem_cons, Nat.sub_self,
                List.getElem?_cons_zero]
              constructor
              · rintro (heq | hm')
                · have h1 : c = e := (Prod.mk.inj heq).2
                  exact ⟨Nat.le_refl k, Or.inr (by rw [h1])⟩
                · exfalso
                  have := ((ih (k + 1) halign' k c).mp hm').1; omega
              · rintro ⟨_, hor | hor⟩
                · exact Except.noConfusion (Option.some.inj hor)
                · left
                  have h1 := Except.error.inj
                    (JoinOutcome.ret.inj (Except.ok.inj (Option.some.inj hor)))
                  rw [h1]
            | ok u =>
              simp only [orderedFailures, Nat.sub_self, List.getElem?_cons_zero]
              constructor
              · intro hm'
                exfalso
                have := ((ih (k + 1) halign' k c).mp hm').1; omega
              · rintro ⟨_, hor | hor⟩
                · exact Except.noConfusion (Option.some.inj hor)
                · exact Except.noConfusion
                    (JoinOutcome.ret.inj (Except.ok.inj (Option.some.inj hor)))
      · -- k < i : the slot lives in the tail
        have hidx : i - k = (i - (k + 1)) + 1 := by omega
        have htail : ((h :: rest)[i - k]? = rest[i - (k + 1)]?) := by
          rw [hidx, List.getElem?_cons_succ]
        have hiff := ih (k + 1) halign' i c
        cases h with
        | error e =>
          have he : e.1 = k := by simpa using halign 0 e (by simp)
          simp only [orderedFailures, List.mem_cons, htail]
          constructor
          · rintro (heq | hm')
            · exfalso; rw [← heq] at he; simp at he; omega
            · have := hiff.mp hm'
              exact ⟨by omega, this.2⟩
          · rintro ⟨_, hor⟩
            exact Or.inr (hiff.mpr ⟨by omega, hor⟩)
        | ok o =>
          cases o with
          | panicked =>
            simp only [orderedFailures, htail]
            constructor
            · intro hm'
              have := hiff.mp hm'
              exact ⟨by omega, this.2⟩
            · rintro ⟨_, hor⟩
              exact hiff.mpr ⟨by omega, hor⟩
          | ret r =>
            cases r with
            | error e =>
              simp only [orderedFailures, List.mem_cons, htail]
              constructor
              · rintro (heq | hm')
                · exfalso
                  have : i = k := by
                    have := congrArg Prod.fst heq; simpa using this
                  omega
                · have := hiff.mp hm'
                  exact ⟨by omega, this.2⟩
              · rintro ⟨_, hor⟩
                exact Or.inr (hiff.mpr ⟨by omega, hor⟩)
            | ok u =>
              simp only [orderedFailures, htail]
              constructor
              · intro hm'
                have := hiff.mp hm'
                exact ⟨by omega, this.2⟩
              · rintro ⟨_, hor⟩
                exact hiff.mpr ⟨by omega, hor⟩

/-- The ordered failure list carries indices at least `k`, strictly
ascending. -/
theorem orderedFailures_pairwise :
    ∀ (hs : List (Except WorkerError JoinOutcome)) (k : Nat),
      (∀ i e, hs[i]? = some (.error e) → e.1 = k + i) →
      (∀ p ∈ orderedFailures k hs, k ≤ p.1) ∧
      List.Pairwise (fun a b : WorkerError => a.1 < b.1) (orderedFailures k hs) := by
  intro hs
  induction hs with
  | nil => intro k halign; exact ⟨by simp [orderedFailures], by simp [orderedFailures]⟩
  | cons h rest ih =>
    intro k halign
    have halign' : ∀ j e, rest[j]? = some (.error e) → e.1 = (k + 1) + j := by
      intro j e hj
      have := halign (j + 1) e (by simpa using hj)
      omega
    obtain ⟨hb, hp⟩ := ih (k + 1) halign'
    cases h with
    | error e =>
      have he : e.1 = k := by simpa using halign 0 e (by simp)
      constructor
      · intro p hp'
        rcases List.mem_cons.mp hp' with heq | hm'
        · rw [heq]; omega
        · have := hb p hm'; omega
      · refine List.Pairwise.cons ?_ hp
        intro p hp'
        have := hb p hp'; omega
    | ok o =>
      cases o with
      | panicked => exact ⟨fun p hp' => by have := hb p hp'; omega, hp⟩
      | ret r =>
        cases r with
        | ok u => exact ⟨fun p hp' => by have := hb p hp'; omega, hp⟩
        | error e =>
          constructor
          · intro p hp'
            rcases List.mem_cons.mp hp' with heq | hm'
            · rw [heq]
            · have := hb p hm'; omega
          · refine List.Pairwise.cons ?_ hp
            intro p hp'
            have := hb p hp'; omega

/-- C6: `join_workers` collects every non-panic failure into (thread index,
cause) pairs — sound and complete over the slots — strictly ascending in
spawn index, succeeds exactly when the list is empty, and otherwise returns
the whole ordered list as one `WorkerErrors` aggregate; in the concrete
{0, 2}-fail / {1}-succeed scenario the aggregate holds exactly the entries
for indices 0 and 2, in ascending order. -/
theorem C6_join_aggregates_ordered (hs : List (Except WorkerError JoinOutcome))
    (hnp : ∀ h ∈ hs, h ≠ .ok .panicked)
    (halign : ∀ (i : Nat) (e : WorkerError), hs[i]? = some (.error e) → e.1 = i) :
    ∃ es : List WorkerError,
      join_workers hs = some (if es.isEmpty then .ok () else .error (.WorkerErrors es)) ∧
      (∀ i c, ((i, c) ∈ es ↔
        (hs[i]? = some (.error (i, c)) ∨ hs[i]? = some (.ok (.ret (.error c)))))) ∧
      List.Pairwise (fun a b : WorkerError => a.1 < b.1) es ∧
      (join_workers hs = some (.ok ()) ↔ es = []) ∧
      (∀ c₀ c₂ : ErrorKind,
        join_workers [.ok (.ret (.error c₀)), .ok (.ret (.ok ())), .ok (.ret (.error c₂))] =
          some (.error (.WorkerErrors [(0, c₀), (2, c₂)]))) := by
  have halign₀ : ∀ (i : Nat) (e : WorkerError), hs[i]? = some (.error e) → e.1 = 0 + i := by
    intro i e h
    have := halign i e h; omega
  have h₁ : join_workers hs =
      some (if (orderedFailures 0 hs).isEmpty then .ok ()
        else .error (.WorkerErrors (orderedFailures 0 hs))) := by
    unfold join_workers
    rw [collectErrors_eq_orderedFailures hs 0 hnp]
    rfl
  refine ⟨orderedFailures 0 hs, h₁, ?_, ?_, ?_, fun c₀ c₂ => rfl⟩
  · intro i c
    have := orderedFailures_mem hs 0 halign₀ i c
    simpa using this
  · exact (orderedFailures_pairwise hs 0 halign₀).2
  · rw [h₁]
    cases hoe : orderedFailures 0 hs with
    | nil => simp
    | cons p ps => simp

/-- The concrete handle list for the C6 witness: worker 0 failed with an
I/O error, worker 1 succeeded, worker 2 failed with an entropy error. -/
def sampleHandles : List (Except WorkerError JoinOutcome) :=
  [.ok (.ret (.error (.IOError wbErr))), .ok (.ret (.ok ())),
    .ok (.ret (.error (.GetRandomError ⟨7⟩)))]

/-- C6 witness: the characterization applied to the concrete
{0, 2}-fail / {1}-succeed handle list. -/
theorem C6_witness :
    ∃ es : List WorkerError,
      join_workers sampleHandles =
        some (if es.isEmpty then .ok () else .error (.WorkerErrors es)) ∧
      (∀ i c, ((i, c) ∈ es ↔
        (sampleHandles[i]? = some (.error (i, c)) ∨
          sampleHandles[i]? = some (.ok (.ret (.error c)))))) ∧
      List.Pairwise (fun a b : WorkerError => a.1 < b.1) es ∧
      (join_workers sampleHandles = some (.ok ()) ↔ es = []) ∧
      (∀ c₀ c₂ : ErrorKind,
        join_workers [.ok (.ret (.error c₀)), .ok (.ret (.ok ())), .ok (.ret (.error c₂))] =
          some (.error (.WorkerErrors [(0, c₀), (2, c₂)]))) :=
  C6_join_aggregates_ordered sampleHandles
    (by
      intro h hm
      simp only [sampleHandles, List.mem_cons, List.not_mem_nil, or_false] at hm
      rcases hm with rfl | rfl | rfl <;> simp)
    (by
      intro i e h
      rcases i with _ | (_ | (_ | i)) <;> simp [sampleHandles] at h)

end Disco
